import Mathlib

/-!
# Verification of the Thrive Health coding-challenge pipeline

Shallow embedding of `src/challenge.js`.  The program constructs `Company`
and `User` objects from JSON records (validated by Joi schemas), sorts
companies by `id` and users by `last_name`, credits each active user with
its company's `top_up`, partitions each company's active users into
`usersEmailed` / `usersNotEmailed`, renders a plain-text report, and can
byte-compare that report against a reference text.

JavaScript numbers that pass the Joi `integer()` checks are embedded as
`Int`; booleans as `Bool`; strings as `String`.  In-place mutation of the
shared `User` objects is embedded by explicit state passing: the token
phase produces the final user list, and the linked/partition lists of each
company hold those final user values (in the source they hold references
to the very same mutated objects, so the values observed after the run are
the final ones).  A `process.exit(1)` / uncaught exception is embedded as
`Option.none`.
-/

/-- Embeds the `User` objects of `challenge.js` (fields of `userSchema`,
copied onto the object by `Object.assign` in the `User` constructor). -/
structure User where
  id : Int
  first_name : String
  last_name : String
  email : String
  email_status : Bool
  active_status : Bool
  tokens : Int
  company_id : Int
deriving DecidableEq

/-- Embeds the `Company` objects of `challenge.js`: the four constructor
fields plus the derived fields `users`, `usersEmailed`, `usersNotEmailed`
(initialised to `[]` by the constructor). -/
structure Company where
  id : Int
  name : String
  top_up : Int
  email_status : Bool
  users : List User
  usersEmailed : List User
  usersNotEmailed : List User
deriving DecidableEq

/-- The constraints `companySchema` places on the four constructor fields of
a `Company` (Joi: `id` integer ≥ 1 required, `name` non-empty string
required, `top_up` integer ≥ 0 required, `email_status` boolean required);
every constructed `Company` satisfies them, since the constructor calls
`validateSchema` and a failure exits the process. -/
def companySchemaOk (c : Company) : Prop :=
  1 ≤ c.id ∧ c.name ≠ "" ∧ 0 ≤ c.top_up

instance (c : Company) : Decidable (companySchemaOk c) := by
  unfold companySchemaOk
  infer_instance

/-- `Company.getUsers` (challenge.js:125-129): filter the user collection to
the users that belong to this company and are active. -/
def Company.getUsers (c : Company) (users : List User) : List User :=
  users.filter (fun u => u.company_id == c.id && u.active_status)

/-- One company's pass of the token loop in `processCompaniesAndUsers`
(challenge.js:183-189): every user matching the `getUsers` filter (the
`active_status` re-check inside the loop is subsumed by the filter) gets
`top_up` added to its tokens.  Mapping over the full user list is
extensionally the same as mutating the filtered references, because the
filter condition does not depend on `tokens`. -/
def creditCompany (c : Company) (users : List User) : List User :=
  users.map (fun u =>
    if u.company_id == c.id && u.active_status then
      { u with tokens := u.tokens + c.top_up }
    else u)

/-- The whole token phase: the `companies.forEach` loop of
`processCompaniesAndUsers`, threaded over the shared user collection. -/
def topUpAll : List Company → List User → List User
  | [], users => users
  | c :: cs, users => topUpAll cs (creditCompany c users)

/-- The effect of the token phase on a single user (the per-user view of
`topUpAll`, companies processed in order). -/
def topUpUser : List Company → User → User
  | [], u => u
  | c :: cs, u =>
      topUpUser cs
        (if u.company_id == c.id && u.active_status then
          { u with tokens := u.tokens + c.top_up }
        else u)

/-- Total credit a user receives over the run: the sum of `top_up` over all
companies whose `id` matches, if the user is active, else `0`. -/
def creditTotal (cs : List Company) (u : User) : Int :=
  if u.active_status then
    ((cs.filter (fun c => u.company_id == c.id)).map Company.top_up).sum
  else 0

/-- The `company.users = usersInCompany` assignments of
`processCompaniesAndUsers` (challenge.js:184), observed after the run: each
company's `users` field holds the (final-token) users matching its filter. -/
def linkCompanies (companies : List Company) (fu : List User) : List Company :=
  companies.map (fun c => { c with users := c.getUsers fu })

/-- The eligibility test of `categorizeUsersByEmailStatus`
(challenge.js:203): `company.email_status && user.email_status &&
user.active_status`. -/
def emailCond (c : Company) (u : User) : Bool :=
  c.email_status && u.email_status && u.active_status

/-- The `else if (user.active_status)` branch condition of
`categorizeUsersByEmailStatus` (challenge.js:205). -/
def notEmailCond (c : Company) (u : User) : Bool :=
  !(emailCond c u) && u.active_status

/-- The effect of one user on its resolved company inside
`categorizeUsersByEmailStatus`: push onto `usersEmailed`, else onto
`usersNotEmailed` if active, else no change. -/
def pushUser (u : User) (c : Company) : Company :=
  if emailCond c u then { c with usersEmailed := c.usersEmailed ++ [u] }
  else if u.active_status then
    { c with usersNotEmailed := c.usersNotEmailed ++ [u] }
  else c

/-- `companies.find((company) => company.id === user.company_id)`
(challenge.js:202) together with the mutation of the found object: replace
the first company whose `id` matches with its pushed version; `none` embeds
the `TypeError` thrown when `find` returns `undefined` and
`company.email_status` is read. -/
def pushAtFirstMatch (u : User) : List Company → Option (List Company)
  | [] => none
  | c :: cs =>
      if c.id == u.company_id then some (pushUser u c :: cs)
      else (pushAtFirstMatch u cs).map (c :: ·)

/-- Index of the first company whose `id` equals the user's `company_id`
(the position `Array.prototype.find` inspects in challenge.js:202). -/
def firstIdx (u : User) : List Company → Option Nat
  | [] => none
  | c :: cs => if c.id == u.company_id then some 0 else (firstIdx u cs).map (· + 1)

/-- `categorizeUsersByEmailStatus` (challenge.js:200-209): fold every user
into the partition lists of its first matching company; `none` when some
user's `company_id` resolves to no company (the thrown `TypeError`). -/
def categorizeUsersByEmailStatus : List User → List Company → Option (List Company)
  | [], cs => some cs
  | u :: us, cs =>
      match pushAtFirstMatch u cs with
      | none => none
      | some cs2 => categorizeUsersByEmailStatus us cs2

/-- `processCompaniesAndUsers` (challenge.js:181-193): token phase and
linking, then categorization.  Returns the final companies and the final
users, or `none` when categorization throws. -/
def processCompaniesAndUsers (companies : List Company) (users : List User) :
    Option (List Company × List User) :=
  match categorizeUsersByEmailStatus (topUpAll companies users)
      (linkCompanies companies (topUpAll companies users)) with
  | none => none
  | some cs2 => some (cs2, topUpAll companies users)

/-- Case-sensitive lexicographic `≤` on character sequences (by code
point), the order underlying JavaScript's `<` / `>` on strings as used by
the user comparator of `sortData`. -/
def charListLe : List Char → List Char → Bool
  | [], _ => true
  | _ :: _, [] => false
  | a :: as, b :: bs =>
      if a.toNat < b.toNat then true
      else if b.toNat < a.toNat then false
      else charListLe as bs

/-- Case-sensitive lexicographic `≤` on strings. -/
def strLe (a b : String) : Bool := charListLe a.data b.data

/-- Stable insertion of `a` into `l`: `a` goes before the first element `b`
with `leb a b`.  This is the insertion step of a stable ascending sort,
the extensional behaviour of `Array.prototype.sort` (stable per ECMA-262)
under a comparator whose "not after" relation is `leb`. -/
def insertSorted {α : Type} (leb : α → α → Bool) (a : α) : List α → List α
  | [] => [a]
  | b :: l => if leb a b then a :: b :: l else b :: insertSorted leb a l

/-- Stable ascending sort (insertion sort). -/
def stableSortBy {α : Type} (leb : α → α → Bool) : List α → List α
  | [] => []
  | a :: l => insertSorted leb a (stableSortBy leb l)

/-- "Not after" relation of the company comparator `(a, b) => a.id - b.id`
of `sortData` (challenge.js:168): the comparator is non-positive exactly
when `a.id ≤ b.id`. -/
def companyLeb (a b : Company) : Bool := a.id ≤ b.id

/-- "Not after" relation of the user comparator of `sortData`
(challenge.js:169-171), which returns -1/1/0 from the case-sensitive
string comparison of `last_name`: the comparator is non-positive exactly
when `a.last_name ≤ b.last_name` lexicographically. -/
def userLeb (a b : User) : Bool := strLe a.last_name b.last_name

/-- `sortData` (challenge.js:167-172): companies ascending by numeric `id`,
users ascending by `last_name`, both by a stable sort. -/
def sortData (companies : List Company) (users : List User) :
    List Company × List User :=
  (stableSortBy companyLeb companies, stableSortBy userLeb users)

/-- Concatenation of the successive `appendToOutputFile` fragments: the
output artifact is the concatenation, in order, of everything appended. -/
def concatStrings : List String → String
  | [] => ""
  | s :: ss => s ++ concatStrings ss

/-- The previous-balance figure rendered by `outputUser`
(challenge.js:231): `user.tokens - company.top_up`, reconstructed rather
than stored. -/
def previousBalanceShown (u : User) (c : Company) : Int := u.tokens - c.top_up

/-- The new-balance figure rendered by `outputUser` (challenge.js:233):
the user's current `tokens`. -/
def newBalanceShown (u : User) : Int := u.tokens

/-- `outputUser` (challenge.js:226-234): the three lines appended for one
user. -/
def outputUser (u : User) (c : Company) : String :=
  "\t\t" ++ u.last_name ++ ", " ++ u.first_name ++ ", " ++ u.email ++ "\n" ++
  "\t\t  Previous Token Balance, " ++ toString (previousBalanceShown u c) ++ "\n" ++
  "\t\t  New Token Balance " ++ toString (newBalanceShown u) ++ "\n"

/-- `outputCompany` (challenge.js:241-258): one company's report section. -/
def outputCompany (c : Company) : String :=
  "\tCompany Id: " ++ toString c.id ++ "\n" ++
  "\tCompany Name: " ++ c.name ++ "\n" ++
  "\tUsers Emailed:\n" ++
  concatStrings (c.usersEmailed.map (fun u => outputUser u c)) ++
  "\tUsers Not Emailed:\n" ++
  concatStrings (c.usersNotEmailed.map (fun u => outputUser u c)) ++
  "\t\tTotal amount of top ups for " ++ c.name ++ ": " ++
    toString (c.top_up * (c.users.length : Int)) ++ "\n" ++
  "\n"

/-- `outputResults` (challenge.js:265-274): truncate the artifact, append a
leading newline, then append each company's section when at least one of
its partition lists is non-empty.  The returned string is the full content
of the output artifact. -/
def outputResults (companies : List Company) : String :=
  "\n" ++ concatStrings (companies.map (fun c =>
    if c.usersEmailed.length > 0 || c.usersNotEmailed.length > 0 then
      outputCompany c
    else ""))

/-- The whole run (challenge.js:302-310): sort, process/categorize, then
write the report.  `none` embeds a fatal failure (uncaught exception /
`process.exit(1)`) occurring before `outputResults` ever touches the
output artifact; `some s` is the artifact content written on success. -/
def runPipeline (companies : List Company) (users : List User) : Option String :=
  match processCompaniesAndUsers (sortData companies users).1
      (sortData companies users).2 with
  | none => none
  | some (cs2, _) => some (outputResults cs2)

/-- `String.prototype.split("\n")` on the character sequence: split at
every newline; no separator yields a single segment, a trailing newline
yields a trailing empty segment. -/
def splitNl : List Char → List (List Char)
  | [] => [[]]
  | c :: rest =>
      if c = '\n' then [] :: splitNl rest
      else
        match splitNl rest with
        | [] => [[c]]
        | l :: ls => (c :: l) :: ls

/-- `text.split("\n")` as in `verifyOutput` (challenge.js:288-289). -/
def splitLines (s : String) : List String :=
  (splitNl s.data).map (fun l => String.mk l)

/-- What `verifyOutput` logs on a mismatch: the 1-based line number `i + 1`
and the two lines' content; `ref = none` embeds the `undefined` that
`exampleOutputLines[i]` yields when the reference has fewer lines. -/
structure DiffReport where
  line : Nat
  out : String
  ref : Option String
deriving DecidableEq

/-- The mismatch loop of `verifyOutput` (challenge.js:290-297): scan the
indices of the generated output's lines, in order, and report the first
index where the output line differs from the reference line; a string is
never `===` `undefined`, so an exhausted reference always differs. -/
def findDiff : List String → List String → Nat → Option DiffReport
  | [], _, _ => none
  | o :: _, [], i => some ⟨i + 1, o, none⟩
  | o :: os, r :: rs, i =>
      if o = r then findDiff os rs (i + 1) else some ⟨i + 1, o, some r⟩

/-- `verifyOutput` (challenge.js:282-299): report nothing when the two
texts are byte-equal, otherwise run the mismatch loop over the split
lines. -/
def verifyOutput (output exampleOutput : String) : Option DiffReport :=
  if output = exampleOutput then none
  else findDiff (splitLines output) (splitLines exampleOutput) 0

/-- A parsed JSON scalar as the Joi schemas of `challenge.js` inspect it
(the record fields of `companies.json` / `users.json` are scalars). -/
inductive JsonVal where
  | num (n : Int)
  | str (s : String)
  | bool (b : Bool)
deriving DecidableEq

/-- A raw parsed record: the key/value pairs of one JSON object (first
occurrence of a key wins on lookup, as in a JS object literal). -/
abbrev RawRecord : Type := List (String × JsonVal)

/-- Property read `record[k]`: `none` embeds `undefined`. -/
def lookupKey (r : RawRecord) (k : String) : Option JsonVal :=
  (List.find? (fun p => p.1 == k) r).map Prod.snd

/-- The keys `userSchema` (challenge.js:43-52) declares; Joi rejects any
other key on a validated object. -/
def userSchemaKeys : List String :=
  ["id", "first_name", "last_name", "email", "email_status", "active_status",
   "tokens", "company_id"]

/-- Joi `number().integer().min(lo).required()` on a property value. -/
def intAtLeast (v : Option JsonVal) (lo : Int) : Bool :=
  match v with
  | some (.num n) => lo ≤ n
  | _ => false

/-- Joi `string().required()` (Joi strings are non-empty by default). -/
def nonEmptyStr (v : Option JsonVal) : Bool :=
  match v with
  | some (.str s) => s != ""
  | _ => false

/-- Joi `boolean().required()`. -/
def isBool (v : Option JsonVal) : Bool :=
  match v with
  | some (.bool _) => true
  | _ => false

/-- Joi `string().email().required()`: a non-empty string passing Joi's
email-format check, which is left abstract as the parameter `emailOk`
(its internals are library code, not part of `challenge.js`). -/
def emailStr (emailOk : String → Bool) (v : Option JsonVal) : Bool :=
  match v with
  | some (.str s) => s != "" && emailOk s
  | _ => false

/-- `userSchema.validate(data)` as run by the `User` constructor
(challenge.js:146-151) on the whole raw record: every key must be one of
the eight schema keys (Joi's unknown-key rejection), and each required
field must satisfy its check. -/
def validateUserRaw (emailOk : String → Bool) (r : RawRecord) : Bool :=
  r.all (fun p => userSchemaKeys.contains p.1) &&
  intAtLeast (lookupKey r "id") 1 &&
  nonEmptyStr (lookupKey r "first_name") &&
  nonEmptyStr (lookupKey r "last_name") &&
  emailStr emailOk (lookupKey r "email") &&
  isBool (lookupKey r "email_status") &&
  isBool (lookupKey r "active_status") &&
  intAtLeast (lookupKey r "tokens") 0 &&
  intAtLeast (lookupKey r "company_id") 1

/-- `new Company(company.id, company.name, company.top_up,
company.email_status)` (challenge.js:154-157) followed by the
constructor's `validateSchema` call on exactly those four fields
(challenge.js:91-109): only the four named properties of the raw record
are ever read, and the constructed object carries empty derived lists.
`none` embeds the `process.exit(1)` on a validation failure. -/
def companyFromRaw (r : RawRecord) : Option Company :=
  match lookupKey r "id", lookupKey r "name", lookupKey r "top_up",
      lookupKey r "email_status" with
  | some (.num i), some (.str n), some (.num t), some (.bool b) =>
      if 1 ≤ i && n != "" && 0 ≤ t then some ⟨i, n, t, b, [], [], []⟩ else none
  | _, _, _, _ => none

/-- Concrete sample company (the spec's worked example). -/
def acme : Company := ⟨1, "Acme", 10, true, [], [], []⟩

/-- Concrete sample user (active, opted into email). -/
def jane : User := ⟨1, "Jane", "Doe", "jane@x.com", true, true, 5, 1⟩

/-- Concrete sample user (active, opted out of email). -/
def bob : User := ⟨2, "Bob", "Roe", "bob@x.com", false, true, 20, 1⟩

/-- `jane` after one run of the top-up phase (5 + 10 tokens). -/
def jane15 : User := ⟨1, "Jane", "Doe", "jane@x.com", true, true, 15, 1⟩

/-- `bob` after one run of the top-up phase (20 + 10 tokens). -/
def bob30 : User := ⟨2, "Bob", "Roe", "bob@x.com", false, true, 30, 1⟩

/-- `acme` after one full run on `[jane, bob]`. -/
def acmeAfter : Company :=
  ⟨1, "Acme", 10, true, [jane15, bob30], [jane15], [bob30]⟩

/-- A second sample company sharing `acme`'s id, for the duplicate-id
scenario. -/
def acmeTwin : Company := ⟨1, "Acme Twin", 7, true, [], [], []⟩

/-- Concrete sample user with `active_status = false`. -/
def ina : User := ⟨3, "Ina", "Quiet", "ina@x.com", true, false, 2, 1⟩

/-- Concrete sample user whose `company_id` matches no sample company. -/
def orphan : User := ⟨4, "Oscar", "Lost", "oscar@x.com", true, true, 9, 99⟩

/-- `jane` after a run against the duplicate-id pair `[acme, acmeTwin]`
(credited by both: 5 + 10 + 7). -/
def jane22 : User := ⟨1, "Jane", "Doe", "jane@x.com", true, true, 22, 1⟩

/-- `acme` after the duplicate-id run: linked and partitioned `jane22`. -/
def acmeDup : Company := ⟨1, "Acme", 10, true, [jane22], [jane22], []⟩

/-- `acmeTwin` after the duplicate-id run: linked `jane22` but received no
partition push (the categorizer stops at the first matching id). -/
def acmeTwinDup : Company := ⟨1, "Acme Twin", 7, true, [jane22], [], []⟩

/-! ## Sorting lemmas -/

theorem insertSorted_perm {α : Type} (leb : α → α → Bool) (a : α) :
    ∀ l : List α, List.Perm (insertSorted leb a l) (a :: l)
  | [] => List.Perm.refl _
  | b :: l => by
      unfold insertSorted
      split
      · exact List.Perm.refl _
      · exact ((insertSorted_perm leb a l).cons b).trans (List.Perm.swap a b l)

theorem stableSortBy_perm {α : Type} (leb : α → α → Bool) :
    ∀ l : List α, List.Perm (stableSortBy leb l) l
  | [] => List.Perm.refl _
  | a :: l =>
      (insertSorted_perm leb a _).trans ((stableSortBy_perm leb l).cons a)

theorem mem_insertSorted {α : Type} {leb : α → α → Bool} {a x : α}
    {l : List α} : x ∈ insertSorted leb a l ↔ x = a ∨ x ∈ l := by
  rw [(insertSorted_perm leb a l).mem_iff, List.mem_cons]

theorem insertSorted_pairwise {α : Type} {leb : α → α → Bool}
    (htot : ∀ x y, leb x y = true ∨ leb y x = true)
    (htrans : ∀ x y z, leb x y = true → leb y z = true → leb x z = true)
    (a : α) :
    ∀ l, List.Pairwise (fun x y => leb x y = true) l →
      List.Pairwise (fun x y => leb x y = true) (insertSorted leb a l)
  | [], _ => List.pairwise_singleton _ a
  | b :: l, h => by
      unfold insertSorted
      by_cases hab : leb a b = true
      · simp only [hab, if_true]
        refine List.Pairwise.cons ?_ h
        intro x hx
        rcases List.mem_cons.mp hx with rfl | hx
        · exact hab
        · exact htrans a b x hab (List.rel_of_pairwise_cons h hx)
      · simp only [hab, if_false]
        refine List.Pairwise.cons ?_ (insertSorted_pairwise htot htrans a l h.of_cons)
        intro x hx
        rcases mem_insertSorted.mp hx with rfl | hx
        · rcases htot x b with hx2 | hx2
          · exact absurd hx2 hab
          · exact hx2
        · exact List.rel_of_pairwise_cons h hx

theorem stableSortBy_pairwise {α : Type} {leb : α → α → Bool}
    (htot : ∀ x y, leb x y = true ∨ leb y x = true)
    (htrans : ∀ x y z, leb x y = true → leb y z = true → leb x z = true) :
    ∀ l, List.Pairwise (fun x y => leb x y = true) (stableSortBy leb l)
  | [] => List.Pairwise.nil
  | a :: l =>
      insertSorted_pairwise htot htrans a _ (stableSortBy_pairwise htot htrans l)

theorem filter_insertSorted_pos {α : Type} {leb : α → α → Bool} {p : α → Bool}
    {a : α} (hpa : p a = true) (hskip : ∀ b, leb a b = false → p b = false) :
    ∀ l, (insertSorted leb a l).filter p = a :: l.filter p
  | [] => by simp [insertSorted, hpa]
  | b :: l => by
      unfold insertSorted
      by_cases hab : leb a b = true
      · simp [hab, List.filter_cons, hpa]
      · have hpb : p b = false := hskip b (Bool.not_eq_true _ ▸ hab)
        simp [hab, List.filter_cons, hpb,
          filter_insertSorted_pos hpa hskip l]

theorem filter_insertSorted_neg {α : Type} {leb : α → α → Bool} {p : α → Bool}
    {a : α} (hpa : p a = false) :
    ∀ l, (insertSorted leb a l).filter p = l.filter p
  | [] => by simp [insertSorted, hpa]
  | b :: l => by
      unfold insertSorted
      by_cases hab : leb a b = true
      · simp [hab, List.filter_cons, hpa]
      · simp [hab, List.filter_cons, filter_insertSorted_neg hpa l]

theorem stableSortBy_filter {α : Type} {leb : α → α → Bool} {p : α → Bool}
    (hskip : ∀ a b, p a = true → leb a b = false → p b = false) :
    ∀ l, (stableSortBy leb l).filter p = l.filter p
  | [] => rfl
  | a :: l => by
      unfold stableSortBy
      by_cases hpa : p a = true
      · rw [filter_insertSorted_pos hpa (fun b => hskip a b hpa),
          stableSortBy_filter hskip l, List.filter_cons_of_pos hpa]
      · have hpa2 : p a = false := Bool.not_eq_true _ ▸ hpa
        rw [filter_insertSorted_neg hpa2, stableSortBy_filter hskip l,
          List.filter_cons_of_neg (by simp [hpa2])]

theorem insertSorted_of_le_head {α : Type} {leb : α → α → Bool} {a : α} :
    ∀ {l : List α}, (∀ x ∈ l, leb a x = true) → insertSorted leb a l = a :: l
  | [], _ => rfl
  | b :: l, h => by
      unfold insertSorted
      rw [if_pos (h b (List.mem_cons_self b l))]

theorem stableSortBy_of_pairwise {α : Type} {leb : α → α → Bool} :
    ∀ {l : List α}, List.Pairwise (fun x y => leb x y = true) l →
      stableSortBy leb l = l
  | [], _ => rfl
  | a :: l, h => by
      unfold stableSortBy
      rw [stableSortBy_of_pairwise h.of_cons]
      exact insertSorted_of_le_head (fun x hx => List.rel_of_pairwise_cons h hx)

theorem stableSortBy_idem {α : Type} {leb : α → α → Bool}
    (htot : ∀ x y, leb x y = true ∨ leb y x = true)
    (htrans : ∀ x y z, leb x y = true → leb y z = true → leb x z = true)
    (l : List α) : stableSortBy leb (stableSortBy leb l) = stableSortBy leb l :=
  stableSortBy_of_pairwise (stableSortBy_pairwise htot htrans l)

/-! ## Properties of the two comparators -/

theorem charListLe_refl : ∀ x : List Char, charListLe x x = true
  | [] => rfl
  | a :: as => by simp [charListLe, Nat.lt_irrefl, charListLe_refl as]

theorem charListLe_total : ∀ x y : List Char,
    charListLe x y = true ∨ charListLe y x = true
  | [], _ => Or.inl rfl
  | _ :: _, [] => Or.inr rfl
  | a :: as, b :: bs => by
      rcases Nat.lt_trichotomy a.toNat b.toNat with h | h | h
      · exact Or.inl (by simp [charListLe, h])
      · rcases charListLe_total as bs with h2 | h2
        · exact Or.inl (by simp [charListLe, h, Nat.lt_irrefl, h2])
        · exact Or.inr (by simp [charListLe, h, Nat.lt_irrefl, h2])
      · exact Or.inr (by simp [charListLe, h])

theorem charListLe_trans : ∀ x y z : List Char,
    charListLe x y = true → charListLe y z = true → charListLe x z = true
  | [], _, _, _, _ => rfl
  | _ :: _, [], _, h, _ => by simp [charListLe] at h
  | _ :: _, _ :: _, [], _, h => by simp [charListLe] at h
  | a :: as, b :: bs, c :: cs, h1, h2 => by
      simp only [charListLe] at h1 h2 ⊢
      split_ifs at h1 h2 ⊢ with g1 g2 g3 g4 g5 g6 <;>
        first
          | rfl
          | omega
          | (exact charListLe_trans as bs cs h1 h2)

theorem strLe_refl (s : String) : strLe s s = true := charListLe_refl s.data

theorem companyLeb_total (a b : Company) :
    companyLeb a b = true ∨ companyLeb b a = true := by
  simp only [companyLeb, decide_eq_true_iff]
  omega

theorem companyLeb_trans (a b c : Company) :
    companyLeb a b = true → companyLeb b c = true → companyLeb a c = true := by
  simp only [companyLeb, decide_eq_true_iff]
  omega

theorem userLeb_total (a b : User) :
    userLeb a b = true ∨ userLeb b a = true :=
  charListLe_total a.last_name.data b.last_name.data

theorem userLeb_trans (a b c : User) :
    userLeb a b = true → userLeb b c = true → userLeb a c = true :=
  charListLe_trans a.last_name.data b.last_name.data c.last_name.data

theorem companyLeb_skip (k : Int) (a b : Company) :
    (a.id == k) = true → companyLeb a b = false → (b.id == k) = false := by
  simp only [companyLeb, beq_iff_eq, decide_eq_false_iff_not, beq_eq_false_iff_ne,
    ne_eq]
  omega

theorem userLeb_skip (k : String) (a b : User) :
    (a.last_name == k) = true → userLeb a b = false → (b.last_name == k) = false := by
  intro h1 h2
  rw [beq_iff_eq] at h1
  rw [beq_eq_false_iff_ne]
  intro h3
  rw [userLeb, h1, h3, strLe_refl] at h2
  exact Bool.true_eq_false ▸ h2

/-- C5: `sortData` orders companies ascending by numeric `id` and users
ascending by `last_name` under the case-sensitive lexicographic comparison,
each output a permutation of its input; ties keep their original relative
order (stability, expressed as preservation of every equal-key
subsequence); and sorting is idempotent: applying `sortData` to
already-sorted collections (its own output) yields the same orders. -/
theorem sortData_spec (companies : List Company) (users : List User) :
    List.Pairwise (fun a b => a.id ≤ b.id) (sortData companies users).1 ∧
    List.Pairwise (fun a b => strLe a.last_name b.last_name = true)
      (sortData companies users).2 ∧
    List.Perm (sortData companies users).1 companies ∧
    List.Perm (sortData companies users).2 users ∧
    (∀ k : Int, (sortData companies users).1.filter (fun c => c.id == k) =
      companies.filter (fun c => c.id == k)) ∧
    (∀ k : String,
      (sortData companies users).2.filter (fun u => u.last_name == k) =
        users.filter (fun u => u.last_name == k)) ∧
    sortData (sortData companies users).1 (sortData companies users).2 =
      sortData companies users := by
  refine ⟨?_, ?_, ?_, ?_, ?_, ?_, ?_⟩
  · exact (stableSortBy_pairwise companyLeb_total companyLeb_trans companies).imp
      (fun h => by simpa [companyLeb] using h)
  · exact stableSortBy_pairwise userLeb_total userLeb_trans users
  · exact stableSortBy_perm companyLeb companies
  · exact stableSortBy_perm userLeb users
  · exact fun k => stableSortBy_filter (companyLeb_skip k) companies
  · exact fun k => stableSortBy_filter (userLeb_skip k) users
  · show (stableSortBy companyLeb (stableSortBy companyLeb companies),
        stableSortBy userLeb (stableSortBy userLeb users)) = _
    rw [stableSortBy_idem companyLeb_total companyLeb_trans,
      stableSortBy_idem userLeb_total userLeb_trans]
    rfl

/-! ## Token-phase lemmas -/

theorem topUpAll_eq_map : ∀ (cs : List Company) (us : List User),
    topUpAll cs us = us.map (topUpUser cs)
  | [], us => by
      rw [topUpAll]
      have h : topUpUser [] = fun u : User => u := funext (fun u => by rw [topUpUser])
      rw [h, List.map_id']
  | c :: cs, us => by
      rw [topUpAll, topUpAll_eq_map cs, creditCompany, List.map_map]
      rfl

theorem topUpUser_fields : ∀ (cs : List Company) (u : User),
    (topUpUser cs u).id = u.id ∧ (topUpUser cs u).first_name = u.first_name ∧
    (topUpUser cs u).last_name = u.last_name ∧
    (topUpUser cs u).email = u.email ∧
    (topUpUser cs u).email_status = u.email_status ∧
    (topUpUser cs u).active_status = u.active_status ∧
    (topUpUser cs u).company_id = u.company_id
  | [], u => by rw [topUpUser]; exact ⟨rfl, rfl, rfl, rfl, rfl, rfl, rfl⟩
  | c :: cs, u => by
      rw [topUpUser]
      by_cases h : (u.company_id == c.id && u.active_status) = true
      · rw [if_pos h]
        exact topUpUser_fields cs _
      · rw [if_neg h]
        exact topUpUser_fields cs u

theorem creditTotal_cons (c : Company) (cs : List Company) (u : User) :
    creditTotal (c :: cs) u =
      (if u.company_id == c.id && u.active_status then c.top_up else 0) +
        creditTotal cs u := by
  by_cases hact : u.active_status = true
  · by_cases hmat : (u.company_id == c.id) = true <;>
      simp [creditTotal, hact, hmat, List.filter_cons]
  · have hact2 : u.active_status = false := Bool.not_eq_true _ ▸ hact
    simp [creditTotal, hact2]

theorem topUpUser_tokens : ∀ (cs : List Company) (u : User),
    (topUpUser cs u).tokens = u.tokens + creditTotal cs u
  | [], u => by simp [topUpUser, creditTotal]
  | c :: cs, u => by
      rw [topUpUser, creditTotal_cons]
      by_cases h : (u.company_id == c.id && u.active_status) = true
      · rw [if_pos h, if_pos h, topUpUser_tokens cs]
        have h1 : creditTotal cs { u with tokens := u.tokens + c.top_up } =
            creditTotal cs u := rfl
        rw [h1]
        show u.tokens + c.top_up + creditTotal cs u = _
        ring
      · rw [if_neg h, if_neg h, topUpUser_tokens cs]
        ring

theorem creditTotal_nonneg (cs : List Company) (u : User)
    (h : ∀ c ∈ cs, 0 ≤ c.top_up) : 0 ≤ creditTotal cs u := by
  induction cs with
  | nil => simp [creditTotal]
  | cons c cs ih =>
      rw [creditTotal_cons]
      have h1 := h c (List.mem_cons_self c cs)
      have h2 := ih (fun c' hc' => h c' (List.mem_cons_of_mem c hc'))
      by_cases hm : (u.company_id == c.id && u.active_status) = true
      · rw [if_pos hm]; omega
      · rw [if_neg hm]; omega

theorem creditTotal_eq_of_unique (cs : List Company) (u : User) (c : Company)
    (huniq : (cs.map Company.id).Nodup) (hc : c ∈ cs) (hid : c.id = u.company_id)
    (hact : u.active_status = true) : creditTotal cs u = c.top_up := by
  induction cs with
  | nil => cases hc
  | cons c0 cs ih =>
      rw [creditTotal_cons]
      rw [List.map_cons, List.nodup_cons] at huniq
      rcases List.mem_cons.mp hc with rfl | hc2
      · rw [if_pos (show (u.company_id == c.id && u.active_status) = true by
          rw [hact, Bool.and_true, ← hid, beq_self_eq_true])]
        have hrest : creditTotal cs u = 0 := by
          rw [creditTotal, if_pos hact]
          have hfil : cs.filter (fun c' => u.company_id == c'.id) = [] := by
            rw [List.filter_eq_nil_iff]
            intro c' hc' hbad
            rw [beq_iff_eq] at hbad
            apply huniq.1
            have hcc : c.id = c'.id := by rw [hid, hbad]
            rw [hcc]
            exact List.mem_map_of_mem Company.id hc'
          rw [hfil]
          rfl
        rw [hrest]
        ring
      · have hne : (u.company_id == c0.id) = false := by
          rw [beq_eq_false_iff_ne]
          intro hbad
          apply huniq.1
          have hcc : c0.id = c.id := by rw [← hbad, ← hid]
          rw [hcc]
          exact List.mem_map_of_mem Company.id hc2
        rw [if_neg (by simp [hne]), ih huniq.2 hc2]
        ring

/-! ## Categorization lemmas -/

theorem list_set_get_self {α : Type} : ∀ (l : List α) (i : Nat) (h : i < l.length),
    l.set i (l.get ⟨i, h⟩) = l
  | _ :: _, 0, _ => rfl
  | a :: l, i + 1, h =>
      congrArg (a :: ·) (list_set_get_self l i (Nat.lt_of_succ_lt_succ h))

theorem pushUser_fields (u : User) (c : Company) :
    (pushUser u c).id = c.id ∧ (pushUser u c).name = c.name ∧
    (pushUser u c).top_up = c.top_up ∧
    (pushUser u c).email_status = c.email_status ∧
    (pushUser u c).users = c.users := by
  unfold pushUser
  split_ifs <;> exact ⟨rfl, rfl, rfl, rfl, rfl⟩

theorem pushUser_usersEmailed (u : User) (c : Company) :
    (pushUser u c).usersEmailed =
      c.usersEmailed ++ (if emailCond c u then [u] else []) := by
  unfold pushUser
  split_ifs with h1 h2 <;> simp

theorem pushUser_usersNotEmailed (u : User) (c : Company) :
    (pushUser u c).usersNotEmailed =
      c.usersNotEmailed ++ (if notEmailCond c u then [u] else []) := by
  unfold pushUser notEmailCond
  split_ifs with h1 h2 <;> simp_all

theorem emailCond_congr {c c' : Company} (u : User)
    (h : c.email_status = c'.email_status) : emailCond c u = emailCond c' u := by
  unfold emailCond
  rw [h]

theorem notEmailCond_congr {c c' : Company} (u : User)
    (h : c.email_status = c'.email_status) :
    notEmailCond c u = notEmailCond c' u := by
  unfold notEmailCond
  rw [emailCond_congr u h]

theorem firstIdx_none_iff (u : User) : ∀ cs : List Company,
    firstIdx u cs = none ↔ ∀ c ∈ cs, c.id ≠ u.company_id
  | [] => by simp [firstIdx]
  | c :: cs => by
      rw [firstIdx]
      cases hm : (c.id == u.company_id) with
      | true =>
          rw [beq_iff_eq] at hm
          simp [hm]
      | false =>
          rw [if_neg (by simp [hm]), Option.map_eq_none']
          rw [beq_eq_false_iff_ne] at hm
          constructor
          · intro hnone c' hc'
            rcases List.mem_cons.mp hc' with rfl | hc'
            · exact hm
            · exact (firstIdx_none_iff u cs).mp hnone c' hc'
          · intro hall
            exact (firstIdx_none_iff u cs).mpr
              (fun c' hc' => hall c' (List.mem_cons_of_mem c hc'))

theorem firstIdx_congr (u : User) : ∀ (cs cs2 : List Company),
    cs.map Company.id = cs2.map Company.id → firstIdx u cs = firstIdx u cs2
  | [], [], _ => rfl
  | [], _ :: _, h => by cases h
  | _ :: _, [], h => by cases h
  | c :: cs, c2 :: cs2, h => by
      rw [List.map_cons, List.map_cons, List.cons.injEq] at h
      rw [firstIdx, firstIdx, h.1, firstIdx_congr u cs cs2 h.2]

theorem firstIdx_some_spec (u : User) : ∀ (cs : List Company) (i : Nat),
    firstIdx u cs = some i →
    ∃ hi : i < cs.length, (cs.get ⟨i, hi⟩).id = u.company_id
  | [], i, h => by cases h
  | c :: cs, i, h => by
      rw [firstIdx] at h
      by_cases hm : (c.id == u.company_id) = true
      · rw [if_pos hm] at h
        cases h
        exact ⟨Nat.succ_pos _, beq_iff_eq.mp hm⟩
      · rw [if_neg hm] at h
        rcases Option.map_eq_some'.mp h with ⟨i0, hi0, rfl⟩
        rcases firstIdx_some_spec u cs i0 hi0 with ⟨hlt, hid⟩
        exact ⟨Nat.succ_lt_succ hlt, hid⟩

theorem firstIdx_eq_some_of_nodup (u : User) : ∀ (cs : List Company) (j : Nat)
    (hj : j < cs.length), (cs.map Company.id).Nodup →
    (cs.get ⟨j, hj⟩).id = u.company_id → firstIdx u cs = some j
  | [], j, hj, _, _ => absurd hj (Nat.not_lt_zero j)
  | c :: cs, 0, hj, _, hid => by
      have hid2 : c.id = u.company_id := hid
      rw [firstIdx, if_pos (beq_iff_eq.mpr hid2)]
  | c :: cs, j + 1, hj, huniq, hid => by
      rw [List.map_cons, List.nodup_cons] at huniq
      have hjlt : j < cs.length := Nat.lt_of_succ_lt_succ hj
      have hmem : cs.get ⟨j, hjlt⟩ ∈ cs := List.get_mem cs j hjlt
      have hne : (c.id == u.company_id) = false := by
        rw [beq_eq_false_iff_ne]
        intro hbad
        apply huniq.1
        have : c.id = (cs.get ⟨j, hjlt⟩).id := by rw [hbad, ← hid]; rfl
        rw [this]
        exact List.mem_map_of_mem Company.id hmem
      rw [firstIdx, if_neg (by simp [hne]),
        firstIdx_eq_some_of_nodup u cs j hjlt huniq.2 hid]
      rfl

theorem pushAtFirstMatch_none (u : User) : ∀ cs : List Company,
    pushAtFirstMatch u cs = none ↔ firstIdx u cs = none
  | [] => by rw [pushAtFirstMatch, firstIdx]; exact iff_of_true rfl rfl
  | c :: cs => by
      rw [pushAtFirstMatch, firstIdx]
      by_cases hm : (c.id == u.company_id) = true
      · simp [hm]
      · rw [if_neg hm, if_neg hm, Option.map_eq_none', Option.map_eq_none']
        exact pushAtFirstMatch_none u cs

theorem pushAtFirstMatch_some (u : User) : ∀ (cs cs2 : List Company),
    pushAtFirstMatch u cs = some cs2 →
    ∃ (i : Nat) (hi : i < cs.length), firstIdx u cs = some i ∧
      cs2 = cs.set i (pushUser u (cs.get ⟨i, hi⟩))
  | [], cs2, h => by cases h
  | c :: cs, cs2, h => by
      rw [pushAtFirstMatch] at h
      by_cases hm : (c.id == u.company_id) = true
      · rw [if_pos hm] at h
        cases h
        exact ⟨0, Nat.succ_pos _, by rw [firstIdx, if_pos hm], rfl⟩
      · rw [if_neg hm] at h
        rcases Option.map_eq_some'.mp h with ⟨cs2', h2, rfl⟩
        rcases pushAtFirstMatch_some u cs cs2' h2 with ⟨i, hi, hfi, rfl⟩
        refine ⟨i + 1, Nat.succ_lt_succ hi, ?_, rfl⟩
        rw [firstIdx, if_neg hm, hfi]
        rfl

theorem map_id_set_pushUser (u : User) : ∀ (cs : List Company) (i : Nat)
    (hi : i < cs.length),
    (cs.set i (pushUser u (cs.get ⟨i, hi⟩))).map Company.id = cs.map Company.id
  | c :: cs, 0, _ => by
      show ((pushUser u c) :: cs).map Company.id = _
      rw [List.map_cons, List.map_cons, (pushUser_fields u c).1]
  | c :: cs, i + 1, hi => by
      show (c :: cs.set i (pushUser u (cs.get ⟨i, Nat.lt_of_succ_lt_succ hi⟩))).map
          Company.id = _
      rw [List.map_cons, List.map_cons,
        map_id_set_pushUser u cs i (Nat.lt_of_succ_lt_succ hi)]

/-- Master description of `categorizeUsersByEmailStatus`: on success it
leaves every company's scalar fields and `users` untouched and appends, to
the two partition lists of the company at each position `j`, exactly the
users whose `company_id` first matches at position `j` and that satisfy
the corresponding branch condition, in input order. -/
theorem categorize_spec : ∀ (us : List User) (cs cs' : List Company),
    categorizeUsersByEmailStatus us cs = some cs' →
    cs'.length = cs.length ∧
    ∀ (j : Nat) (hj : j < cs.length) (hj' : j < cs'.length),
      cs'[j].id = cs[j].id ∧ cs'[j].name = cs[j].name ∧
      cs'[j].top_up = cs[j].top_up ∧
      cs'[j].email_status = cs[j].email_status ∧
      cs'[j].users = cs[j].users ∧
      cs'[j].usersEmailed = cs[j].usersEmailed ++
        us.filter (fun u => firstIdx u cs == some j && emailCond cs[j] u) ∧
      cs'[j].usersNotEmailed = cs[j].usersNotEmailed ++
        us.filter (fun u => firstIdx u cs == some j && notEmailCond cs[j] u)
  | [], cs, cs', h => by
      rw [categorizeUsersByEmailStatus] at h
      cases h
      exact ⟨rfl, fun j hj hj' => by simp⟩
  | u :: us, cs, cs', h => by
      rw [categorizeUsersByEmailStatus] at h
      split at h
      · cases h
      · rename_i cs2 hp
        rcases pushAtFirstMatch_some u cs cs2 hp with ⟨i, hi, hfi, rfl⟩
        rcases categorize_spec us _ cs' h with ⟨hlen, hspec⟩
        have hlen2 : (cs.set i (pushUser u (cs.get ⟨i, hi⟩))).length = cs.length :=
          List.length_set cs i _
        refine ⟨by rw [hlen, hlen2], ?_⟩
        intro j hj hj'
        have hj2 : j < (cs.set i (pushUser u (cs.get ⟨i, hi⟩))).length := by
          rw [hlen2]; exact hj
        rcases hspec j hj2 hj' with ⟨h1, h2, h3, h4, h5, h6, h7⟩
        have hfid : ∀ u' : User,
            firstIdx u' (cs.set i (pushUser u (cs.get ⟨i, hi⟩))) = firstIdx u' cs :=
          fun u' => firstIdx_congr u' _ cs (map_id_set_pushUser u cs i hi)
        simp only [hfid] at h6 h7
        by_cases hji : j = i
        · subst hji
          have hget : (cs.set j (pushUser u (cs.get ⟨j, hi⟩)))[j] =
              pushUser u (cs.get ⟨j, hi⟩) := List.getElem_set_self hj2
          rw [hget] at h1 h2 h3 h4 h5 h6 h7
          have hecE : ∀ u' : User,
              emailCond (pushUser u (cs.get ⟨j, hi⟩)) u' =
                emailCond (cs.get ⟨j, hi⟩) u' :=
            fun u' => emailCond_congr u' (pushUser_fields u (cs.get ⟨j, hi⟩)).2.2.2.1
          have hecN : ∀ u' : User,
              notEmailCond (pushUser u (cs.get ⟨j, hi⟩)) u' =
                notEmailCond (cs.get ⟨j, hi⟩) u' :=
            fun u' => notEmailCond_congr u' (pushUser_fields u (cs.get ⟨j, hi⟩)).2.2.2.1
          simp only [hecE] at h6
          simp only [hecN] at h7
          rw [pushUser_usersEmailed] at h6
          rw [pushUser_usersNotEmailed] at h7
          have hbequ : (firstIdx u cs == some j) = true := by
            rw [hfi]; exact beq_self_eq_true _
          refine ⟨h1.trans (pushUser_fields u (cs.get ⟨j, hi⟩)).1,
            h2.trans (pushUser_fields u (cs.get ⟨j, hi⟩)).2.1,
            h3.trans (pushUser_fields u (cs.get ⟨j, hi⟩)).2.2.1,
            h4.trans (pushUser_fields u (cs.get ⟨j, hi⟩)).2.2.2.1,
            h5.trans (pushUser_fields u (cs.get ⟨j, hi⟩)).2.2.2.2, ?_, ?_⟩
          · rw [h6, List.filter_cons]
            by_cases hec : emailCond (cs.get ⟨j, hi⟩) u = true
            · have hec' : emailCond cs[j] u = true := hec
              rw [if_pos hec,
                if_pos (show (firstIdx u cs == some j && emailCond cs[j] u) = true by
                  rw [hbequ, hec']; rfl),
                List.append_assoc]
              exact rfl
            · have hec2 : emailCond (cs.get ⟨j, hi⟩) u = false :=
                Bool.not_eq_true _ ▸ hec
              have hec3 : emailCond cs[j] u = false := hec2
              rw [if_neg hec,
                if_neg (show ¬((firstIdx u cs == some j && emailCond cs[j] u) = true) by
                  rw [hec3, Bool.and_false]; exact Bool.false_ne_true),
                List.append_nil]
              exact rfl
          · rw [h7, List.filter_cons]
            by_cases hne : notEmailCond (cs.get ⟨j, hi⟩) u = true
            · have hne' : notEmailCond cs[j] u = true := hne
              rw [if_pos hne,
                if_pos (show (firstIdx u cs == some j && notEmailCond cs[j] u) = true by
                  rw [hbequ, hne']; rfl),
                List.append_assoc]
              exact rfl
            · have hne2 : notEmailCond (cs.get ⟨j, hi⟩) u = false :=
                Bool.not_eq_true _ ▸ hne
              have hne3 : notEmailCond cs[j] u = false := hne2
              rw [if_neg hne,
                if_neg (show ¬((firstIdx u cs == some j && notEmailCond cs[j] u) = true) by
                  rw [hne3, Bool.and_false]; exact Bool.false_ne_true),
                List.append_nil]
              exact rfl
        · have hne' : i ≠ j := fun hh => hji hh.symm
          have hget : (cs.set i (pushUser u (cs.get ⟨i, hi⟩)))[j] = cs[j] :=
            List.getElem_set_ne hne' hj2
          rw [hget] at h1 h2 h3 h4 h5 h6 h7
          have hbne : (firstIdx u cs == some j) = false := by
            rw [hfi, beq_eq_false_iff_ne]
            intro hc
            exact hji (Option.some.inj hc).symm
          refine ⟨h1, h2, h3, h4, h5, ?_, ?_⟩
          · rw [List.filter_cons, if_neg (by simp [hbne])]
            exact h6
          · rw [List.filter_cons, if_neg (by simp [hbne])]
            exact h7

theorem categorize_none_of_unresolved : ∀ (us : List User) (cs : List Company),
    (∃ u ∈ us, firstIdx u cs = none) → categorizeUsersByEmailStatus us cs = none
  | [], _, h => by rcases h with ⟨u, hu, _⟩; cases hu
  | u0 :: us, cs, h => by
      rw [categorizeUsersByEmailStatus]
      rcases h with ⟨u, hu, hnone⟩
      rcases List.mem_cons.mp hu with rfl | hu2
      · rw [(pushAtFirstMatch_none u cs).mpr hnone]
      · cases hp : pushAtFirstMatch u0 cs with
        | none => rfl
        | some cs2 =>
            rcases pushAtFirstMatch_some u0 cs cs2 hp with ⟨i, hi, _, rfl⟩
            exact categorize_none_of_unresolved us _ ⟨u, hu2, by
              rw [firstIdx_congr u _ cs (map_id_set_pushUser u0 cs i hi)]
              exact hnone⟩

theorem categorize_some_resolves (us : List User) (cs cs' : List Company)
    (h : categorizeUsersByEmailStatus us cs = some cs') :
    ∀ u ∈ us, firstIdx u cs ≠ none := by
  intro u hu hnone
  rw [categorize_none_of_unresolved us cs ⟨u, hu, hnone⟩] at h
  cases h

theorem linkCompanies_length (companies : List Company) (fu : List User) :
    (linkCompanies companies fu).length = companies.length :=
  List.length_map companies _

theorem linkCompanies_getElem (companies : List Company) (fu : List User)
    (j : Nat) (hj : j < companies.length)
    (hj2 : j < (linkCompanies companies fu).length) :
    (linkCompanies companies fu)[j] =
      { companies[j] with users := Company.getUsers companies[j] fu } := by
  unfold linkCompanies
  rw [List.getElem_map]

theorem linkCompanies_map_id (companies : List Company) (fu : List User) :
    (linkCompanies companies fu).map Company.id = companies.map Company.id := by
  unfold linkCompanies
  rw [List.map_map]
  rfl

theorem process_some_spec (companies : List Company) (users : List User)
    (cs' : List Company) (us' : List User)
    (h : processCompaniesAndUsers companies users = some (cs', us')) :
    us' = users.map (topUpUser companies) ∧
    categorizeUsersByEmailStatus (topUpAll companies users)
      (linkCompanies companies (topUpAll companies users)) = some cs' := by
  rw [processCompaniesAndUsers] at h
  split at h
  · cases h
  · rename_i cs2 hc
    have h2 := Option.some.inj h
    have hcs : cs' = cs2 := (congrArg Prod.fst h2).symm
    have hus : us' = topUpAll companies users := (congrArg Prod.snd h2).symm
    subst hcs
    subst hus
    exact ⟨topUpAll_eq_map companies users, hc⟩

/-- C1: after one run of `processCompaniesAndUsers` on inputs with unique
company ids where every user's `company_id` resolves to a company, each
active user's tokens equal its pre-run tokens plus its owning company's
`top_up` (credited exactly once), every other user's tokens are unchanged,
and no user's tokens decrease (the validated `top_up` is non-negative). -/
theorem topup_credits_active_users_once (companies : List Company)
    (users : List User) (cs' : List Company) (us' : List User)
    (hvalid : ∀ c ∈ companies, companySchemaOk c)
    (huniq : (companies.map Company.id).Nodup)
    (_hres : ∀ u ∈ users, ∃ c ∈ companies, c.id = u.company_id)
    (hrun : processCompaniesAndUsers companies users = some (cs', us')) :
    us'.length = users.length ∧
    ∀ (i : Nat) (hi : i < users.length) (hi' : i < us'.length),
      (users[i].active_status = true →
        ∀ c ∈ companies, c.id = users[i].company_id →
          us'[i].tokens = users[i].tokens + c.top_up) ∧
      (users[i].active_status = false → us'[i].tokens = users[i].tokens) ∧
      users[i].tokens ≤ us'[i].tokens := by
  rcases process_some_spec companies users cs' us' hrun with ⟨husers, _⟩
  subst husers
  refine ⟨List.length_map users _, ?_⟩
  intro i hi hi'
  have hmap : (users.map (topUpUser companies))[i] = topUpUser companies users[i] :=
    List.getElem_map _
  rw [hmap, topUpUser_tokens]
  refine ⟨?_, ?_, ?_⟩
  · intro hact c hc hcid
    rw [creditTotal_eq_of_unique companies users[i] c huniq hc hcid hact]
  · intro hinact
    have hz : creditTotal companies users[i] = 0 := by
      rw [creditTotal, if_neg (by rw [hinact]; exact Bool.false_ne_true)]
    rw [hz]
    ring
  · have hnn := creditTotal_nonneg companies users[i]
      (fun c hc => (hvalid c hc).2.2)
    omega

/-- Witness for C1 at the spec's worked example. -/
theorem topup_credits_active_users_once_witness :
    ([jane15, bob30] : List User).length = ([jane, bob] : List User).length ∧
    ∀ (i : Nat) (hi : i < ([jane, bob] : List User).length)
      (hi' : i < ([jane15, bob30] : List User).length),
      (([jane, bob] : List User)[i].active_status = true →
        ∀ c ∈ [acme], c.id = ([jane, bob] : List User)[i].company_id →
          ([jane15, bob30] : List User)[i].tokens =
            ([jane, bob] : List User)[i].tokens + c.top_up) ∧
      (([jane, bob] : List User)[i].active_status = false →
        ([jane15, bob30] : List User)[i].tokens =
          ([jane, bob] : List User)[i].tokens) ∧
      ([jane, bob] : List User)[i].tokens ≤ ([jane15, bob30] : List User)[i].tokens :=
  topup_credits_active_users_once [acme] [jane, bob] [acmeAfter] [jane15, bob30]
    (by decide) (by decide) (by decide) (by decide)

/-- C8: a successful run of `processCompaniesAndUsers` (categorization
included) changes only each user's `tokens` and each company's derived
`users` / `usersEmailed` / `usersNotEmailed`: every other field of every
user and company is unchanged, positionally. -/
theorem process_frame (companies : List Company) (users : List User)
    (cs' : List Company) (us' : List User)
    (hrun : processCompaniesAndUsers companies users = some (cs', us')) :
    us'.length = users.length ∧ cs'.length = companies.length ∧
    (∀ (i : Nat) (hi : i < users.length) (hi' : i < us'.length),
      us'[i].id = users[i].id ∧ us'[i].first_name = users[i].first_name ∧
      us'[i].last_name = users[i].last_name ∧ us'[i].email = users[i].email ∧
      us'[i].email_status = users[i].email_status ∧
      us'[i].active_status = users[i].active_status ∧
      us'[i].company_id = users[i].company_id) ∧
    (∀ (j : Nat) (hj : j < companies.length) (hj' : j < cs'.length),
      cs'[j].id = companies[j].id ∧ cs'[j].name = companies[j].name ∧
      cs'[j].top_up = companies[j].top_up ∧
      cs'[j].email_status = companies[j].email_status) := by
  rcases process_some_spec companies users cs' us' hrun with ⟨husers, hcat⟩
  subst husers
  rcases categorize_spec _ _ _ hcat with ⟨hlen, hspec⟩
  have hlenl := linkCompanies_length companies (topUpAll companies users)
  refine ⟨List.length_map users _, by rw [hlen, hlenl], ?_, ?_⟩
  · intro i hi hi'
    have hmap : (users.map (topUpUser companies))[i] =
        topUpUser companies users[i] := List.getElem_map _
    rw [hmap]
    exact topUpUser_fields companies users[i]
  · intro j hj hj'
    have hj2 : j < (linkCompanies companies (topUpAll companies users)).length := by
      rw [hlenl]; exact hj
    rcases hspec j hj2 hj' with ⟨h1, h2, h3, h4, _, _, _⟩
    rw [linkCompanies_getElem companies _ j hj hj2] at h1 h2 h3 h4
    exact ⟨h1, h2, h3, h4⟩

/-- Witness for C8 at the spec's worked example. -/
theorem process_frame_witness :
    ([jane15, bob30] : List User).length = ([jane, bob] : List User).length ∧
    ([acmeAfter] : List Company).length = ([acme] : List Company).length ∧
    (∀ (i : Nat) (hi : i < ([jane, bob] : List User).length)
      (hi' : i < ([jane15, bob30] : List User).length),
      ([jane15, bob30] : List User)[i].id = ([jane, bob] : List User)[i].id ∧
      ([jane15, bob30] : List User)[i].first_name =
        ([jane, bob] : List User)[i].first_name ∧
      ([jane15, bob30] : List User)[i].last_name =
        ([jane, bob] : List User)[i].last_name ∧
      ([jane15, bob30] : List User)[i].email = ([jane, bob] : List User)[i].email ∧
      ([jane15, bob30] : List User)[i].email_status =
        ([jane, bob] : List User)[i].email_status ∧
      ([jane15, bob30] : List User)[i].active_status =
        ([jane, bob] : List User)[i].active_status ∧
      ([jane15, bob30] : List User)[i].company_id =
        ([jane, bob] : List User)[i].company_id) ∧
    (∀ (j : Nat) (hj : j < ([acme] : List Company).length)
      (hj' : j < ([acmeAfter] : List Company).length),
      ([acmeAfter] : List Company)[j].id = ([acme] : List Company)[j].id ∧
      ([acmeAfter] : List Company)[j].name = ([acme] : List Company)[j].name ∧
      ([acmeAfter] : List Company)[j].top_up = ([acme] : List Company)[j].top_up ∧
      ([acmeAfter] : List Company)[j].email_status =
        ([acme] : List Company)[j].email_status) :=
  process_frame [acme] [jane, bob] [acmeAfter] [jane15, bob30] (by decide)

theorem emailCond_active {c : Company} {u : User} (h : emailCond c u = true) :
    u.active_status = true := by
  unfold emailCond at h
  rw [Bool.and_eq_true] at h
  exact h.2

theorem notEmailCond_active {c : Company} {u : User}
    (h : notEmailCond c u = true) : u.active_status = true := by
  unfold notEmailCond at h
  rw [Bool.and_eq_true] at h
  exact h.2

theorem notEmailCond_of (c : Company) (u : User) (hec : emailCond c u = false)
    (hact : u.active_status = true) : notEmailCond c u = true := by
  unfold notEmailCond
  rw [hec, hact, Bool.not_false, Bool.true_and]

theorem not_both_conds {c : Company} {u : User} (hec : emailCond c u = true)
    (hnc : notEmailCond c u = true) : False := by
  unfold notEmailCond at hnc
  rw [hec, Bool.not_true, Bool.false_and] at hnc
  cases hnc

/-- C2: after categorization, every company's `usersEmailed` and
`usersNotEmailed` are disjoint, their union (as a set) is exactly the
company's linked `users`, and the linked `users` are exactly the
(final-token) users with `active_status = true` and matching `company_id`,
for every valid input with unique company ids (fresh companies start with
empty partition lists, as the constructor guarantees). -/
theorem partition_disjoint_union (companies : List Company) (users : List User)
    (cs' : List Company) (us' : List User)
    (huniq : (companies.map Company.id).Nodup)
    (hfresh : ∀ c ∈ companies, c.usersEmailed = [] ∧ c.usersNotEmailed = [])
    (hrun : processCompaniesAndUsers companies users = some (cs', us')) :
    ∀ (j : Nat) (hj' : j < cs'.length),
      (∀ u, u ∈ cs'[j].usersEmailed → u ∉ cs'[j].usersNotEmailed) ∧
      (∀ u, (u ∈ cs'[j].usersEmailed ∨ u ∈ cs'[j].usersNotEmailed) ↔
        u ∈ cs'[j].users) ∧
      cs'[j].users =
        us'.filter (fun u => u.company_id == cs'[j].id && u.active_status) := by
  rcases process_some_spec companies users cs' us' hrun with ⟨husers, hcat⟩
  subst husers
  rw [topUpAll_eq_map] at hcat
  rcases categorize_spec _ _ _ hcat with ⟨hlen, hspec⟩
  have hlenl := linkCompanies_length companies (users.map (topUpUser companies))
  intro j hj'
  have hj : j < companies.length := by
    rw [hlen, hlenl] at hj'
    exact hj'
  have hj2 : j < (linkCompanies companies (users.map (topUpUser companies))).length := by
    rw [hlenl]; exact hj
  rcases hspec j hj2 hj' with ⟨h1, _, _, h4, h5, h6, h7⟩
  have hLget := linkCompanies_getElem companies (users.map (topUpUser companies)) j hj hj2
  have hrecE : (linkCompanies companies (users.map (topUpUser companies)))[j].usersEmailed =
      companies[j].usersEmailed := by rw [hLget]
  have hrecN : (linkCompanies companies (users.map (topUpUser companies)))[j].usersNotEmailed =
      companies[j].usersNotEmailed := by rw [hLget]
  have hrecId : (linkCompanies companies (users.map (topUpUser companies)))[j].id =
      companies[j].id := by rw [hLget]
  have hrecU : (linkCompanies companies (users.map (topUpUser companies)))[j].users =
      Company.getUsers companies[j] (users.map (topUpUser companies)) := by rw [hLget]
  have hmem : companies[j] ∈ companies := List.getElem_mem hj
  rw [hrecE, (hfresh companies[j] hmem).1, List.nil_append] at h6
  rw [hrecN, (hfresh companies[j] hmem).2, List.nil_append] at h7
  rw [hrecU, Company.getUsers] at h5
  have hLuniq : ((linkCompanies companies (users.map (topUpUser companies))).map
      Company.id).Nodup := by
    rw [linkCompanies_map_id]
    exact huniq
  refine ⟨?_, ?_, ?_⟩
  · intro u huE huN
    rw [h6, List.mem_filter] at huE
    rw [h7, List.mem_filter] at huN
    have huE2 := huE.2
    have huN2 := huN.2
    rw [Bool.and_eq_true] at huE2 huN2
    rcases huE2 with ⟨_, hec⟩
    rcases huN2 with ⟨_, hnc⟩
    exact not_both_conds hec hnc
  · intro u
    constructor
    · intro hcase
      rw [h5, List.mem_filter]
      rcases hcase with huE | huN
      · rw [h6, List.mem_filter] at huE
        have huE2 := huE.2
        rw [Bool.and_eq_true] at huE2
        rcases huE2 with ⟨hfib, hec⟩
        have hfi := beq_iff_eq.mp hfib
        rcases firstIdx_some_spec u _ j hfi with ⟨hjL, hidL⟩
        have hid2 : companies[j].id = u.company_id := by
          rw [← hrecId]; exact hidL
        have hact := emailCond_active hec
        exact ⟨huE.1, by rw [Bool.and_eq_true, beq_iff_eq, hid2]
                         exact ⟨rfl, hact⟩⟩
      · rw [h7, List.mem_filter] at huN
        have huN2 := huN.2
        rw [Bool.and_eq_true] at huN2
        rcases huN2 with ⟨hfib, hnc⟩
        have hfi := beq_iff_eq.mp hfib
        rcases firstIdx_some_spec u _ j hfi with ⟨hjL, hidL⟩
        have hid2 : companies[j].id = u.company_id := by
          rw [← hrecId]; exact hidL
        have hact := notEmailCond_active hnc
        exact ⟨huN.1, by rw [Bool.and_eq_true, beq_iff_eq, hid2]
                         exact ⟨rfl, hact⟩⟩
    · intro huU
      rw [h5, List.mem_filter] at huU
      have huU2 := huU.2
      rw [Bool.and_eq_true] at huU2
      rcases huU2 with ⟨hidb, hact⟩
      have hid := beq_iff_eq.mp hidb
      have hfi : firstIdx u (linkCompanies companies (users.map (topUpUser companies))) =
          some j := by
        apply firstIdx_eq_some_of_nodup u _ j hj2 hLuniq
        show (linkCompanies companies (users.map (topUpUser companies)))[j].id =
          u.company_id
        rw [hrecId, ← hid]
      by_cases hec : emailCond
          (linkCompanies companies (users.map (topUpUser companies)))[j] u = true
      · refine Or.inl ?_
        rw [h6, List.mem_filter]
        exact ⟨huU.1, by rw [Bool.and_eq_true, beq_iff_eq]; exact ⟨hfi, hec⟩⟩
      · refine Or.inr ?_
        rw [h7, List.mem_filter]
        refine ⟨huU.1, ?_⟩
        rw [Bool.and_eq_true, beq_iff_eq]
        exact ⟨hfi, notEmailCond_of _ u (Bool.not_eq_true _ ▸ hec) hact⟩
  · rw [h5]
    apply List.filter_congr
    intro u _
    have h1' : cs'[j].id = companies[j].id := by rw [h1, hrecId]
    rw [h1']

/-- Witness for C2 at the spec's worked example, at the only company. -/
theorem partition_disjoint_union_witness :
    (∀ u, u ∈ ([acmeAfter] : List Company)[0].usersEmailed →
      u ∉ ([acmeAfter] : List Company)[0].usersNotEmailed) ∧
    (∀ u, (u ∈ ([acmeAfter] : List Company)[0].usersEmailed ∨
      u ∈ ([acmeAfter] : List Company)[0].usersNotEmailed) ↔
      u ∈ ([acmeAfter] : List Company)[0].users) ∧
    ([acmeAfter] : List Company)[0].users =
      ([jane15, bob30] : List User).filter
        (fun u => u.company_id == ([acmeAfter] : List Company)[0].id &&
          u.active_status) :=
  partition_disjoint_union [acme] [jane, bob] [acmeAfter] [jane15, bob30]
    (by decide) (by decide) (by decide) 0 (by decide)

theorem concatStrings_ite_filter {α : Type} (p : α → Bool) (f : α → String) :
    ∀ l : List α, concatStrings (l.map (fun a => if p a then f a else "")) =
      concatStrings ((l.filter p).map f)
  | [] => rfl
  | a :: l => by
      rw [List.map_cons, concatStrings, List.filter_cons]
      by_cases hp : p a = true
      · rw [if_pos hp, if_pos hp, List.map_cons, concatStrings,
          concatStrings_ite_filter p f l]
      · rw [if_neg hp, if_neg hp, concatStrings_ite_filter p f l]
        exact rfl

theorem concatStrings_empty {α : Type} (f : α → String) :
    ∀ l : List α, (∀ a ∈ l, f a = "") → concatStrings (l.map f) = ""
  | [], _ => rfl
  | a :: l, h => by
      rw [List.map_cons, concatStrings, h a (List.mem_cons_self a l),
        concatStrings_empty f l (fun a' ha' => h a' (List.mem_cons_of_mem a ha'))]
      exact rfl

/-- C6: `outputResults` emits a company's section exactly for the companies
with a non-empty `usersEmailed` or `usersNotEmailed` (first conjunct), and
whenever no company has an active user (and the run succeeded from freshly
constructed companies), the whole rendered artifact is the single leading
blank line (second conjunct). -/
theorem outputResults_skips_empty (companies : List Company) (users : List User)
    (cs' : List Company) (us' : List User) :
    (outputResults companies = "\n" ++ concatStrings
      ((companies.filter (fun c => c.usersEmailed.length > 0 ||
        c.usersNotEmailed.length > 0)).map outputCompany)) ∧
    ((∀ c ∈ companies, c.usersEmailed = [] ∧ c.usersNotEmailed = []) →
      (∀ c ∈ companies, Company.getUsers c users = []) →
      processCompaniesAndUsers companies users = some (cs', us') →
      outputResults cs' = "\n") := by
  constructor
  · unfold outputResults
    rw [concatStrings_ite_filter]
  · intro hfresh hnoact hrun
    rcases process_some_spec companies users cs' us' hrun with ⟨husers, hcat⟩
    rw [topUpAll_eq_map] at hcat
    rcases categorize_spec _ _ _ hcat with ⟨hlen, hspec⟩
    have hlenl := linkCompanies_length companies (users.map (topUpUser companies))
    have hall : ∀ c ∈ cs', c.usersEmailed = [] ∧ c.usersNotEmailed = [] := by
      intro c hc
      rcases List.mem_iff_getElem.mp hc with ⟨j, hj', rfl⟩
      have hj : j < companies.length := by
        rw [hlen, hlenl] at hj'
        exact hj'
      have hj2 : j < (linkCompanies companies (users.map (topUpUser companies))).length := by
        rw [hlenl]; exact hj
      rcases hspec j hj2 hj' with ⟨_, _, _, _, _, h6, h7⟩
      have hLget := linkCompanies_getElem companies
        (users.map (topUpUser companies)) j hj hj2
      have hrecE : (linkCompanies companies (users.map (topUpUser companies)))[j].usersEmailed =
          companies[j].usersEmailed := by rw [hLget]
      have hrecN : (linkCompanies companies (users.map (topUpUser companies)))[j].usersNotEmailed =
          companies[j].usersNotEmailed := by rw [hLget]
      have hmemc : companies[j] ∈ companies := List.getElem_mem hj
      rw [hrecE, (hfresh companies[j] hmemc).1, List.nil_append] at h6
      rw [hrecN, (hfresh companies[j] hmemc).2, List.nil_append] at h7
      have hnone : ∀ u ∈ users.map (topUpUser companies),
          ¬(u.active_status = true) := by
        intro u hu hact
        rcases List.mem_map.mp hu with ⟨u0, hu0, rfl⟩
        have hfields := topUpUser_fields companies u0
        have hres := categorize_some_resolves _ _ _ hcat
          (topUpUser companies u0) hu
        cases hfiv : firstIdx (topUpUser companies u0)
            (linkCompanies companies (users.map (topUpUser companies))) with
        | none => exact hres hfiv
        | some i =>
            rcases firstIdx_some_spec _ _ i hfiv with ⟨hiL, hidL⟩
            have hiC : i < companies.length := by
              rw [linkCompanies_length] at hiL
              exact hiL
            have hrecIdI : ((linkCompanies companies
                (users.map (topUpUser companies))).get ⟨i, hiL⟩).id =
                companies[i].id := by
              show ((linkCompanies companies
                (users.map (topUpUser companies)))[i]).id = companies[i].id
              rw [linkCompanies_getElem companies _ i hiC hiL]
            have hidC : companies[i].id = (topUpUser companies u0).company_id := by
              rw [← hrecIdI]
              exact hidL
            have hmemu : u0 ∈ Company.getUsers companies[i] users := by
              rw [Company.getUsers, List.mem_filter]
              refine ⟨hu0, ?_⟩
              rw [Bool.and_eq_true, beq_iff_eq]
              refine ⟨?_, hfields.2.2.2.2.2.1 ▸ hact⟩
              rw [hidC, hfields.2.2.2.2.2.2]
            rw [hnoact companies[i] (List.getElem_mem hiC)] at hmemu
            cases hmemu
      constructor
      · rw [h6, List.filter_eq_nil_iff]
        intro u hu hp
        rw [Bool.and_eq_true] at hp
        exact hnone u hu (emailCond_active hp.2)
      · rw [h7, List.filter_eq_nil_iff]
        intro u hu hp
        rw [Bool.and_eq_true] at hp
        exact hnone u hu (notEmailCond_active hp.2)
    unfold outputResults
    rw [concatStrings_empty _ cs' (fun c hc => by
      rw [if_neg (by rw [(hall c hc).1, (hall c hc).2]; simp)]),
      String.append_empty]

/-- Witness for C6: with one company and one inactive user the run
succeeds and the rendered report is exactly the leading blank line. -/
theorem outputResults_skips_empty_witness :
    (outputResults [acme] = "\n" ++ concatStrings
      ((([acme] : List Company).filter (fun c => c.usersEmailed.length > 0 ||
        c.usersNotEmailed.length > 0)).map outputCompany)) ∧
    outputResults [acme] = "\n" :=
  ⟨(outputResults_skips_empty [acme] [ina] [acme] [ina]).1,
    (outputResults_skips_empty [acme] [ina] [acme] [ina]).2
      (by decide) (by decide) (by decide)⟩

/-- C3: in every user block of the report the rendered new balance minus
the rendered previous balance equals the owning company's `top_up`,
exactly, in integer arithmetic; the previous balance is rendered as
`tokens - top_up` and the new balance as the current `tokens`. -/
theorem report_balance_delta (u : User) (c : Company) :
    newBalanceShown u - previousBalanceShown u c = c.top_up ∧
    previousBalanceShown u c = u.tokens - c.top_up ∧
    newBalanceShown u = u.tokens ∧
    outputUser u c =
      "\t\t" ++ u.last_name ++ ", " ++ u.first_name ++ ", " ++ u.email ++ "\n" ++
      "\t\t  Previous Token Balance, " ++ toString (previousBalanceShown u c) ++
      "\n" ++ "\t\t  New Token Balance " ++ toString (newBalanceShown u) ++ "\n" := by
  refine ⟨?_, rfl, rfl, rfl⟩
  unfold newBalanceShown previousBalanceShown
  ring

/-- C4: whenever some user's `company_id` equals no company's id, the whole
run fails during categorization — before the output artifact is produced
or modified (`runPipeline` returns `none`, producing no artifact
content). -/
theorem unresolved_company_fatal (companies : List Company) (users : List User)
    (h : ∃ u ∈ users, ∀ c ∈ companies, c.id ≠ u.company_id) :
    runPipeline companies users = none := by
  rcases h with ⟨u, hu, hall⟩
  unfold runPipeline
  have hsorted := sortData_spec companies users
  rcases hsorted with ⟨_, _, hpermC, hpermU, _⟩
  have hu2 : u ∈ (sortData companies users).2 := hpermU.mem_iff.mpr hu
  cases hrun : processCompaniesAndUsers (sortData companies users).1
      (sortData companies users).2 with
  | none => rfl
  | some p =>
      rcases process_some_spec _ _ p.1 p.2 (by rw [hrun]) with ⟨_, hcat⟩
      have hures : topUpUser (sortData companies users).1 u ∈
          topUpAll (sortData companies users).1 (sortData companies users).2 := by
        rw [topUpAll_eq_map]
        exact List.mem_map_of_mem _ hu2
      have hnores : firstIdx (topUpUser (sortData companies users).1 u)
          (linkCompanies (sortData companies users).1
            (topUpAll (sortData companies users).1 (sortData companies users).2)) =
          none := by
        rw [firstIdx_none_iff]
        intro c hc
        rcases List.mem_map.mp hc with ⟨c0, hc0, rfl⟩
        have hc0mem : c0 ∈ companies := hpermC.mem_iff.mp hc0
        intro hbad
        exact hall c0 hc0mem
          ((topUpUser_fields (sortData companies users).1 u).2.2.2.2.2.2 ▸ hbad)
      exact absurd hnores (categorize_some_resolves _ _ _ hcat _ hures)

/-- Witness for C4: a user referencing the non-existent company id 99. -/
theorem unresolved_company_fatal_witness :
    runPipeline [acme] [orphan] = none :=
  unresolved_company_fatal [acme] [orphan] ⟨orphan, by decide, by decide⟩

/-- C9: a user lands in the partition lists of at most one company — the
one at the first position whose id equals the user's `company_id` — even
when several companies share an id; and every matching company's linked
`users` list still contains each of its active users. -/
theorem partition_first_match_only (companies : List Company) (users : List User)
    (cs' : List Company) (us' : List User)
    (hfresh : ∀ c ∈ companies, c.usersEmailed = [] ∧ c.usersNotEmailed = [])
    (hrun : processCompaniesAndUsers companies users = some (cs', us')) :
    ∀ (u : User) (j : Nat) (hj' : j < cs'.length),
      ((u ∈ cs'[j].usersEmailed ∨ u ∈ cs'[j].usersNotEmailed) →
        firstIdx u companies = some j ∧ u ∈ us') ∧
      (u ∈ us' → u.active_status = true → cs'[j].id = u.company_id →
        u ∈ cs'[j].users) := by
  rcases process_some_spec companies users cs' us' hrun with ⟨husers, hcat⟩
  subst husers
  rw [topUpAll_eq_map] at hcat
  rcases categorize_spec _ _ _ hcat with ⟨hlen, hspec⟩
  have hlenl := linkCompanies_length companies (users.map (topUpUser companies))
  intro u j hj'
  have hj : j < companies.length := by
    rw [hlen, hlenl] at hj'
    exact hj'
  have hj2 : j < (linkCompanies companies (users.map (topUpUser companies))).length := by
    rw [hlenl]; exact hj
  rcases hspec j hj2 hj' with ⟨h1, _, _, _, h5, h6, h7⟩
  have hLget := linkCompanies_getElem companies (users.map (topUpUser companies)) j hj hj2
  have hrecE : (linkCompanies companies (users.map (topUpUser companies)))[j].usersEmailed =
      companies[j].usersEmailed := by rw [hLget]
  have hrecN : (linkCompanies companies (users.map (topUpUser companies)))[j].usersNotEmailed =
      companies[j].usersNotEmailed := by rw [hLget]
  have hrecId : (linkCompanies companies (users.map (topUpUser companies)))[j].id =
      companies[j].id := by rw [hLget]
  have hrecU : (linkCompanies companies (users.map (topUpUser companies)))[j].users =
      Company.getUsers companies[j] (users.map (topUpUser companies)) := by rw [hLget]
  have hmemc : companies[j] ∈ companies := List.getElem_mem hj
  rw [hrecE, (hfresh companies[j] hmemc).1, List.nil_append] at h6
  rw [hrecN, (hfresh companies[j] hmemc).2, List.nil_append] at h7
  constructor
  · intro hcase
    have hmemfi : u ∈ users.map (topUpUser companies) ∧
        (firstIdx u (linkCompanies companies (users.map (topUpUser companies))) ==
          some j) = true := by
      rcases hcase with hE | hN
      · rw [h6, List.mem_filter] at hE
        have h2 := hE.2
        rw [Bool.and_eq_true] at h2
        exact ⟨hE.1, h2.1⟩
      · rw [h7, List.mem_filter] at hN
        have h2 := hN.2
        rw [Bool.and_eq_true] at h2
        exact ⟨hN.1, h2.1⟩
    have hfiL := beq_iff_eq.mp hmemfi.2
    refine ⟨?_, hmemfi.1⟩
    rw [← firstIdx_congr u _ companies (linkCompanies_map_id companies _)]
    exact hfiL
  · intro hus hact hid
    rw [h5, hrecU, Company.getUsers, List.mem_filter]
    refine ⟨hus, ?_⟩
    rw [Bool.and_eq_true, beq_iff_eq]
    refine ⟨?_, hact⟩
    rw [← hid, h1, hrecId]

/-- Witness for C9 at a duplicate-id input: both companies share id 1;
`jane` is pushed only into the first one's partitions, yet both linked
`users` lists contain her (companion instantiation at the second company,
whose linked list also holds her). -/
theorem partition_first_match_only_witness :
    ((jane22 ∈ ([acmeDup, acmeTwinDup] : List Company)[1].usersEmailed ∨
      jane22 ∈ ([acmeDup, acmeTwinDup] : List Company)[1].usersNotEmailed) →
      firstIdx jane22 [acme, acmeTwin] = some 1 ∧
        jane22 ∈ ([jane22] : List User)) ∧
    (jane22 ∈ ([jane22] : List User) → jane22.active_status = true →
      ([acmeDup, acmeTwinDup] : List Company)[1].id = jane22.company_id →
      jane22 ∈ ([acmeDup, acmeTwinDup] : List Company)[1].users) :=
  partition_first_match_only [acme, acmeTwin] [jane] [acmeDup, acmeTwinDup]
    [jane22] (by decide) (by decide) jane22 1 (by decide)

/-- What the mismatch loop reports: either every output line within range
matches the reference line at the same index (and nothing is reported), or
the first in-range mismatch index `k` is reported as line `i + k + 1`
with both contents. -/
theorem findDiff_spec : ∀ (ol el : List String) (i : Nat),
    (findDiff ol el i = none ∧ ∀ m, m < ol.length → ol[m]? = el[m]?) ∨
    ∃ (k : Nat) (hk : k < ol.length),
      findDiff ol el i = some ⟨i + k + 1, ol.get ⟨k, hk⟩, el[k]?⟩ ∧
      (∀ m, m < k → ol[m]? = el[m]?) ∧ ol[k]? ≠ el[k]?
  | [], el, i => Or.inl ⟨rfl, fun m hm => absurd hm (Nat.not_lt_zero m)⟩
  | o :: os, [], i =>
      Or.inr ⟨0, Nat.succ_pos _, rfl,
        fun m hm => absurd hm (Nat.not_lt_zero m), by simp⟩
  | o :: os, r :: rs, i => by
      rw [findDiff]
      by_cases h : o = r
      · rw [if_pos h]
        rcases findDiff_spec os rs (i + 1) with ⟨hn, hpre⟩ | ⟨k, hk, heq, hbelow, hdiff⟩
        · refine Or.inl ⟨hn, ?_⟩
          intro m hm
          cases m with
          | zero => rw [List.getElem?_cons_zero, List.getElem?_cons_zero, h]
          | succ m =>
              rw [List.getElem?_cons_succ, List.getElem?_cons_succ]
              exact hpre m (Nat.lt_of_succ_lt_succ hm)
        · refine Or.inr ⟨k + 1, Nat.succ_lt_succ hk, ?_, ?_, ?_⟩
          · rw [heq]
            have harith : i + 1 + k + 1 = i + (k + 1) + 1 := by omega
            rw [harith, List.getElem?_cons_succ]
            rfl
          · intro m hm
            cases m with
            | zero => rw [List.getElem?_cons_zero, List.getElem?_cons_zero, h]
            | succ m =>
                rw [List.getElem?_cons_succ, List.getElem?_cons_succ]
                exact hbelow m (Nat.lt_of_succ_lt_succ hm)
          · rw [List.getElem?_cons_succ, List.getElem?_cons_succ]
            exact hdiff
      · rw [if_neg h]
        refine Or.inr ⟨0, Nat.succ_pos _, ?_,
          fun m hm => absurd hm (Nat.not_lt_zero m), ?_⟩
        · rw [List.getElem?_cons_zero]
          rfl
        · rw [List.getElem?_cons_zero, List.getElem?_cons_zero]
          intro hc
          exact h (Option.some.inj hc)

/-- C7 (amended): for texts that are not byte-equal, `verifyOutput` scans
only the indices of the generated output's line list: it reports the first
in-range index where the output line differs from the reference line
(1-based, with both contents, the reference side absent when the reference
has fewer lines); when every output line matches — the output's lines are
a proper prefix of the reference's — it reports nothing. -/
theorem verifyOutput_first_diff (o e : String) (hne : o ≠ e) :
    ((∀ m, m < (splitLines o).length →
        (splitLines o)[m]? = (splitLines e)[m]?) ∧ verifyOutput o e = none) ∨
    ∃ (k : Nat) (hk : k < (splitLines o).length),
      verifyOutput o e = some ⟨k + 1, (splitLines o).get ⟨k, hk⟩,
        (splitLines e)[k]?⟩ ∧
      (∀ m, m < k → (splitLines o)[m]? = (splitLines e)[m]?) ∧
      (splitLines o)[k]? ≠ (splitLines e)[k]? := by
  unfold verifyOutput
  rw [if_neg hne]
  rcases findDiff_spec (splitLines o) (splitLines e) 0 with
    ⟨hn, hp⟩ | ⟨k, hk, heq, hb, hd⟩
  · exact Or.inl ⟨hp, hn⟩
  · refine Or.inr ⟨k, hk, ?_, hb, hd⟩
    rw [heq, Nat.zero_add]

/-- Witness for the amended C7 at texts diverging at their second line. -/
theorem verifyOutput_first_diff_witness :
    ((∀ m, m < (splitLines "a\nc").length →
        (splitLines "a\nc")[m]? = (splitLines "a\nb")[m]?) ∧
      verifyOutput "a\nc" "a\nb" = none) ∨
    ∃ (k : Nat) (hk : k < (splitLines "a\nc").length),
      verifyOutput "a\nc" "a\nb" = some ⟨k + 1, (splitLines "a\nc").get ⟨k, hk⟩,
        (splitLines "a\nb")[k]?⟩ ∧
      (∀ m, m < k → (splitLines "a\nc")[m]? = (splitLines "a\nb")[m]?) ∧
      (splitLines "a\nc")[k]? ≠ (splitLines "a\nb")[k]? :=
  verifyOutput_first_diff "a\nc" "a\nb" (by decide)

/-- Counterexample to C7 as stated: the texts `"a"` and `"a\nb"` are not
byte-equal (their lines first diverge at index 1), yet `verifyOutput`
reports nothing, because its loop never looks past the generated output's
own line count. -/
theorem verifyOutput_silent_on_prefix :
    verifyOutput "a" "a\nb" = none ∧ ("a" : String) ≠ "a\nb" :=
  ⟨by decide, by decide⟩

theorem lookupKey_cons_ne (r : RawRecord) (k k' : String) (v : JsonVal)
    (h : k ≠ k') : lookupKey ((k, v) :: r) k' = lookupKey r k' := by
  unfold lookupKey
  rw [List.find?_cons_of_neg _ (by simp [h])]

theorem all_eq_false_of_mem {α : Type} {l : List α} {p : α → Bool} {x : α}
    (hx : x ∈ l) (hp : p x = false) : l.all p = false := by
  rw [Bool.eq_false_iff]
  intro hall
  rw [List.all_eq_true] at hall
  rw [hall x hx] at hp
  cases hp

/-- C10: a raw user record containing any key outside the eight
`userSchema` fields fails validation (Joi rejects unknown keys, and the
`User` constructor validates the whole record), whereas an unknown extra
key in a raw company record changes nothing: the `Company` construction
reads and validates only the four named fields. -/
theorem unknown_keys_user_fatal_company_ignored (emailOk : String → Bool)
    (r rc : RawRecord) (k : String) (v : JsonVal)
    (hmem : (k, v) ∈ r) (hk : k ∉ userSchemaKeys)
    (kc : String) (vc : JsonVal)
    (hkc : kc ≠ "id" ∧ kc ≠ "name" ∧ kc ≠ "top_up" ∧ kc ≠ "email_status") :
    validateUserRaw emailOk r = false ∧
    companyFromRaw ((kc, vc) :: rc) = companyFromRaw rc := by
  constructor
  · unfold validateUserRaw
    rw [all_eq_false_of_mem hmem (by simpa using hk)]
    simp
  · unfold companyFromRaw
    rw [lookupKey_cons_ne rc kc "id" vc hkc.1,
      lookupKey_cons_ne rc kc "name" vc hkc.2.1,
      lookupKey_cons_ne rc kc "top_up" vc hkc.2.2.1,
      lookupKey_cons_ne rc kc "email_status" vc hkc.2.2.2]

/-- Witness for C10: a nine-key user record with an `extra` key fails
validation; a company record with a `junk` key builds the same company as
without it. -/
theorem unknown_keys_user_fatal_company_ignored_witness :
    validateUserRaw (fun _ => true)
      [("id", .num 1), ("first_name", .str "J"), ("last_name", .str "D"),
       ("email", .str "j@x.com"), ("email_status", .bool true),
       ("active_status", .bool true), ("tokens", .num 0),
       ("company_id", .num 1), ("extra", .num 3)] = false ∧
    companyFromRaw (("junk", .str "z") ::
        [("id", .num 1), ("name", .str "A"), ("top_up", .num 5),
         ("email_status", .bool true)]) =
      companyFromRaw [("id", .num 1), ("name", .str "A"), ("top_up", .num 5),
        ("email_status", .bool true)] :=
  unknown_keys_user_fatal_company_ignored (fun _ => true)
    [("id", .num 1), ("first_name", .str "J"), ("last_name", .str "D"),
     ("email", .str "j@x.com"), ("email_status", .bool true),
     ("active_status", .bool true), ("tokens", .num 0),
     ("company_id", .num 1), ("extra", .num 3)]
    [("id", .num 1), ("name", .str "A"), ("top_up", .num 5),
     ("email_status", .bool true)]
    "extra" (.num 3) (by decide) (by decide) "junk" (.str "z") (by decide)
